import Mathlib

/-!
Verification of the `retro` metro-routing program.

This file gives a shallow embedding, in Lean, of the Rust sources
(`src/lib.rs` and `src/main.rs`) of the `retro` repository, and proves or
refutes a list of claims about that program.

Modelling conventions:
* Rust `usize` values are modelled as `Nat`; `usize::MAX` is the constant
  `USIZE_MAX = 2 ^ 64 - 1` (64-bit target) and `usize` addition is the
  wrapping addition `wadd` (addition modulo `2 ^ 64`).
* A Rust panic (out-of-bounds indexing, failed `expect`, and so on) is
  modelled by `Option`: `none` is a panic, `some` a normal return.
* The two `while` loops whose termination is not structurally evident
  (`Metro::get_terminus` and the predecessor walk in `Metro::get_changes`)
  take an explicit fuel argument; exhausted fuel also yields `none`.
* Field, function and parameter names follow the Rust source wherever Lean
  allows it (the Rust field `end` is a Lean keyword and is renamed `endId`).
-/

/-- Bit width of `usize` on the 64-bit target the program runs on. -/
def USIZE_MOD : Nat := 2 ^ 64

/-- The value `usize::MAX`, used by the program as the infinity sentinel. -/
def USIZE_MAX : Nat := USIZE_MOD - 1

/-- Wrapping `usize` addition (release-profile Rust semantics). -/
def wadd (a b : Nat) : Nat := (a + b) % USIZE_MOD

/-- Write `v` at index `i` of `l`; Rust `l[i] = v`, which panics (here:
`none`) when `i` is out of bounds. -/
def setOpt (l : List Nat) (i v : Nat) : Option (List Nat) :=
  if i < l.length then some (l.set i v) else none

/-- A metro station (Rust struct `Station`). -/
structure Station where
  id : Nat
  line : String
  state : Bool
  name : String
deriving DecidableEq, Repr

/-- An undirected weighted edge between two stations (Rust struct `Trip`). -/
structure Trip where
  first : Nat
  second : Nat
  time : Nat
deriving DecidableEq, Repr

/-- The metro network (Rust struct `Metro`). -/
structure Metro where
  stations : List Station
  trips : List Trip
deriving DecidableEq, Repr

/-! String parsing utilities mirroring the `str` methods used by
`Station::new` and `Trip::new`. -/

/-- One step list of `trim_start_matches`: repeatedly strip the prefix
`pat` from `s`; the fuel is the string length (each strip of a nonempty
pattern removes at least one character). -/
def stripAllAux : Nat → List Char → List Char → List Char
  | 0, _, s => s
  | f + 1, pat, s =>
    if !pat.isEmpty && pat.isPrefixOf s then
      stripAllAux f pat (s.drop pat.length)
    else s

/-- Rust `str::trim_start_matches`. -/
def trimStartMatches (pat s : String) : String :=
  String.mk (stripAllAux s.length pat.toList s.toList)

/-- Split `s` at the first space, returning the piece before it and,
when a space was found, the remainder after it. -/
def breakSpace : List Char → List Char × Option (List Char)
  | [] => ([], none)
  | c :: t =>
    if c = ' ' then ([], some t)
    else
      let (p, r) := breakSpace t
      (c :: p, r)

/-- Rust `str::splitn(n, " ")` on character lists: at most `n` pieces, the
last piece being the unsplit remainder. -/
def splitNAux : Nat → List Char → List (List Char)
  | 0, _ => []
  | 1, s => [s]
  | n + 2, s =>
    match breakSpace s with
    | (p, none) => [p]
    | (p, some r) => p :: splitNAux (n + 1) r

/-- Rust `str::splitn(n, " ")`. -/
def splitN (n : Nat) (s : String) : List String :=
  (splitNAux n s.toList).map (fun l => String.mk l)

/-- Numeric value of a digit string. -/
def digitsVal (s : List Char) : Nat :=
  s.foldl (fun a c => a * 10 + (c.toNat - 48)) 0

/-- Rust `str::parse::<usize>()`: an optional leading `+`, then a nonempty
run of decimal digits; values above `usize::MAX` overflow (an error). -/
def parseUsize (s : List Char) : Option Nat :=
  let t := match s with
    | '+' :: r => r
    | _ => s
  if !t.isEmpty && t.all Char.isDigit then
    let v := digitsVal t
    if v ≤ USIZE_MAX then some v else none
  else none

/-- Rust `Station::new`: strip the leading `"V "`, split into four fields,
parse the id, strip leading zeros from the line identifier, read the
terminus flag as equality with `"1"`, keep the remainder as the name.
A wrong field count or an unparsable id is a panic (`none`). -/
def Station.new (description : String) : Option Station :=
  match splitN 4 (trimStartMatches "V " description) with
  | [a, b, c, d] => do
    let id ← parseUsize a.toList
    some { id := id, line := trimStartMatches "0" b, state := c == "1", name := d }
  | _ => none

/-- Rust `Trip::new`: strip the leading `"E "`, split into three fields and
parse all three as `usize`. -/
def Trip.new (config : String) : Option Trip :=
  match splitN 3 (trimStartMatches "E " config) with
  | [a, b, c] => do
    let first ← parseUsize a.toList
    let second ← parseUsize b.toList
    let time ← parseUsize c.toList
    some { first := first, second := second, time := time }
  | _ => none

/-! The network graph, shortest-path engine and route reconstructor of
`src/lib.rs`. -/

/-- Rust `Metro::get_paths_to_neighboors`: all trips incident to `current`,
in registry order. -/
def Metro.get_paths_to_neighboors (m : Metro) (current : Nat) : List Trip :=
  m.trips.filter (fun path => current == path.first || current == path.second)

/-- The `for trip in trips` body of `Metro::get_terminus`: fold the walk
state `(prev, curr)` over the incident-trip list.  Station lookups are the
panicking indexings `self.stations[curr]` / `self.stations[trip.second]`
(resp. `trip.first`). -/
def termStep (m : Metro) : List Trip → Nat → Nat → Option (Nat × Nat)
  | [], prev, curr => some (prev, curr)
  | trip :: rest, prev, curr =>
    if curr = trip.first then do
      let sc ← m.stations[curr]?
      let so ← m.stations[trip.second]?
      if sc.line = so.line ∧ prev ≠ trip.second then
        termStep m rest curr trip.second
      else termStep m rest prev curr
    else if curr = trip.second then do
      let sc ← m.stations[curr]?
      let so ← m.stations[trip.first]?
      if sc.line = so.line ∧ prev ≠ trip.first then
        termStep m rest curr trip.first
      else termStep m rest prev curr
    else termStep m rest prev curr

/-- Rust `Metro::get_terminus`: walk along same-line edges, never stepping
back to `prev`, until the current station is flagged as a terminus; return
its id.  `fuel` bounds the number of `while` iterations (`none` when it
runs out, modelling non-termination). -/
def Metro.get_terminus (m : Metro) : Nat → Nat → Nat → Option Nat
  | 0, _, _ => none
  | fuel + 1, prev, curr => do
    let st ← m.stations[curr]?
    if st.state then some st.id
    else do
      let (p, c) ← termStep m (m.get_paths_to_neighboors curr) prev curr
      m.get_terminus fuel p c

/-- The predecessor walk of `Metro::get_changes`: starting from `current`,
follow `prevs` until `start` is reached, pushing each visited station
(`path.push(&self.stations[next])`).  `fuel` bounds the iterations. -/
def walkF (m : Metro) (start : Nat) (prevs : List Nat) :
    Nat → Nat → List Station → Option (List Station)
  | fuel, current, acc =>
    if current = start then some acc
    else
      match fuel with
      | 0 => none
      | f + 1 => do
        let next ← prevs[current]?
        let st ← m.stations[next]?
        walkF m start prevs f next (acc ++ [st])

/-- The `for i in 1..path.len()` loop of `Metro::get_changes`:
`prev = path[i-1]`, `s = path[i]`, and the head of `rest` (when present) is
`path[i+1]`.  A line change records `path[i]` as a transfer, and, when a
next station exists, one direction-terminus entry. -/
def cdLoop (m : Metro) (fuel : Nat) :
    Station → List Station → List Station → List Nat →
    Option (List Station × List Nat)
  | _, [], changes, directions => some (changes, directions)
  | prev, s :: rest, changes, directions =>
    if prev.line ≠ s.line then
      match rest with
      | [] => cdLoop m fuel s rest (changes ++ [s]) directions
      | s2 :: _ => do
        let d ← m.get_terminus fuel s.id s2.id
        cdLoop m fuel s rest (changes ++ [s]) (directions ++ [d])
    else cdLoop m fuel s rest changes directions

/-- Rust `Metro::get_changes`: rebuild the path from `endId` back to
`start` from the predecessor array, reverse it, push the first direction
terminus from `path[0]`/`path[1]` (an out-of-bounds panic when the path has
fewer than two entries), then scan the path for line changes. -/
def Metro.get_changes (m : Metro) (fuel : Nat) (start endId : Nat)
    (prevs : List Nat) : Option (List Station × List Nat) := do
  let se ← m.stations[endId]?
  let walked ← walkF m start prevs fuel endId [se]
  let path := walked.reverse
  match path with
  | s0 :: s1 :: rest => do
    let d0 ← m.get_terminus fuel s0.id s1.id
    cdLoop m fuel s0 (s1 :: rest) [] [d0]
  | _ => none

/-- The minimum scan of `get_next`: fold `(min, next)` over the unvisited
list, starting from `(usize::MAX, 0)`, taking a new minimum only on a
strictly smaller distance. -/
def get_next_scan (distance : List Nat) : List Nat → Nat → Nat → Option (Nat × Nat)
  | [], min, next => some (min, next)
  | station :: rest, min, next => do
    let d ← distance[station]?
    if d < min then get_next_scan distance rest d station
    else get_next_scan distance rest min next

/-- The removal loop of `get_next`: delete the first occurrence of `next`
from the unvisited list (no change when it is absent). -/
def removeFirst : List Nat → Nat → List Nat
  | [], _ => []
  | x :: rest, next => if x = next then rest else x :: removeFirst rest next

/-- Rust `get_next`: select the next station, remove it from the unvisited
list, and unconditionally increment the visited counter.  Returns the
selection together with the updated unvisited list and counter. -/
def get_next (distance unvisited : List Nat) (visited : Nat) :
    Option (Nat × List Nat × Nat) := do
  let (_, next) ← get_next_scan distance unvisited USIZE_MAX 0
  some (next, removeFirst unvisited next, visited + 1)

/-- One relaxation (the body of `for path in paths` in `Metro::dijkstra`):
compare the raw sum `distance[current] + path.time` against the neighbor's
distance and, on success, store the sum plus the stop penalty and set the
predecessor. -/
def relaxOne (distance prevs : List Nat) (current : Nat) (path : Trip) :
    Option (List Nat × List Nat) :=
  if current = path.first then do
    let dc ← distance[current]?
    let ds ← distance[path.second]?
    if wadd dc path.time < ds then do
      let distance1 ← setOpt distance path.second (wadd (wadd dc path.time) 30)
      let prevs1 ← setOpt prevs path.second current
      some (distance1, prevs1)
    else some (distance, prevs)
  else if current = path.second then do
    let dc ← distance[current]?
    let df ← distance[path.first]?
    if wadd dc path.time < df then do
      let distance1 ← setOpt distance path.first (wadd (wadd dc path.time) 30)
      let prevs1 ← setOpt prevs path.first current
      some (distance1, prevs1)
    else some (distance, prevs)
  else some (distance, prevs)

/-- Relax every incident edge of `current`, in registry order. -/
def relaxList : List Trip → Nat → List Nat → List Nat →
    Option (List Nat × List Nat)
  | [], _, distance, prevs => some (distance, prevs)
  | path :: rest, current, distance, prevs => do
    let (distance1, prevs1) ← relaxOne distance prevs current path
    relaxList rest current distance1 prevs1

/-- The transient search state of `Metro::dijkstra`. -/
structure DState where
  distance : List Nat
  prevs : List Nat
  unvisited : List Nat
  visited : Nat
deriving DecidableEq, Repr

/-- One iteration of the `while visited < self.stations.len()` loop:
select `current` with `get_next`, then relax all its incident edges. -/
def dijkstraStep (m : Metro) (st : DState) : Option DState := do
  let (current, unvisited1, visited1) ←
    get_next st.distance st.unvisited st.visited
  let (distance1, prevs1) ←
    relaxList (m.get_paths_to_neighboors current) current st.distance st.prevs
  some ⟨distance1, prevs1, unvisited1, visited1⟩

/-- The search loop, with fuel: `none` when the fuel runs out while the
loop condition still holds (which `dijkstra_loop_exact_iterations` shows
never happens with fuel `stations.length`). -/
def loopW (m : Metro) : Nat → DState → Option DState
  | 0, st => if st.visited < m.stations.length then none else some st
  | fuel + 1, st =>
    if st.visited < m.stations.length then do
      let st1 ← dijkstraStep m st
      loopW m fuel st1
    else some st

/-- Exactly `k` conditional unrollings of the same `while` loop, used to
observe intermediate search states. -/
def stepsRun (m : Metro) : Nat → DState → Option DState
  | 0, st => some st
  | k + 1, st =>
    if st.visited < m.stations.length then do
      let st1 ← dijkstraStep m st
      stepsRun m k st1
    else some st

/-- The initial search state of `Metro::dijkstra`: every distance is the
`usize::MAX` sentinel except `distance[start] = 0` (a panicking write),
every predecessor is the sentinel, every station is unvisited. -/
def dInit (m : Metro) (start : Nat) : Option DState := do
  let distance ← setOpt (List.replicate m.stations.length USIZE_MAX) start 0
  some ⟨distance, List.replicate m.stations.length USIZE_MAX,
        List.range m.stations.length, 0⟩

/-- Rust `get_time`: split a second count into minutes and seconds. -/
def get_time (time : Nat) : Nat × Nat :=
  (time / 60, time - time / 60 * 60)

/-- The result record of one query (Rust struct `Results`; the Rust field
`end` is renamed `endId`). -/
structure Results where
  start : Nat
  changes : List Station
  directions : List Nat
  time : Nat × Nat
  endId : Nat
deriving DecidableEq, Repr

/-- Rust `Metro::dijkstra`: full single-source relaxation from `start`,
then the time conversion of `distance[endId]` and the route
reconstruction.  `fuel` feeds the two non-structural loops of the
reconstruction. -/
def Metro.dijkstra (m : Metro) (fuel : Nat) (start endId : Nat) :
    Option Results := do
  let st0 ← dInit m start
  let st ← loopW m m.stations.length st0
  let de ← st.distance[endId]?
  let time := get_time de
  let (changes, directions) ← m.get_changes fuel start endId st.prevs
  some ⟨start, changes, directions, time, endId⟩

/-! The caller in `src/main.rs`: one query per (departure, arrival) pair,
then a linear scan for the result with the smallest time. -/

/-- The strict order Rust uses in `results[i].time < results[best].time`:
the derived lexicographic order on `(usize, usize)`. -/
def tupleLt (a b : Nat × Nat) : Bool :=
  a.1 < b.1 || (a.1 == b.1 && a.2 < b.2)

/-- Collapse a list of fallible query results: any panic aborts `main`. -/
def seqOpt : List (Option Results) → Option (List Results)
  | [] => some []
  | o :: rest => do
    let x ← o
    let xs ← seqOpt rest
    some (x :: xs)

/-- The nested `for departure in departures { for arrival in arrivals }`
loop of `main`: one `Metro::dijkstra` query per pair, departures outermost,
results in push order. -/
def mainResults (m : Metro) (fuel : Nat) (departures arrivals : List Nat) :
    Option (List Results) :=
  seqOpt (departures.flatMap (fun d => arrivals.map (fun a => m.dijkstra fuel d a)))

/-- The `for i in 1..results.len()` selection loop of `main`: `best` starts
at 0, `i` at 1, and the remaining iteration count at `len - 1`; each
iteration compares `results[i].time` with `results[best].time`. -/
def bestLoop (results : List Results) : Nat → Nat → Nat → Option Nat
  | 0, best, _ => some best
  | r + 1, best, i => do
    let ri ← results[i]?
    let rb ← results[best]?
    if tupleLt ri.time rb.time then bestLoop results r i (i + 1)
    else bestLoop results r best (i + 1)

/-- The index `best` selected by `main` (lines 21-26 of `src/main.rs`). -/
def bestOf (results : List Results) : Option Nat :=
  bestLoop results (results.length - 1) 0 1

/-- The line of station `i`, when it exists. -/
def lineAt (m : Metro) (i : Nat) : Option String :=
  (m.stations[i]?).map Station.line

/-- Whether a trip qualifies for the `get_terminus` step at the walk state
`(prev, curr)`: it is incident to `curr`, its far endpoint is on the same
line as `curr`, and that endpoint is not `prev`.  Returns the far
endpoint. -/
def qualifyTarget (m : Metro) (prev curr : Nat) (t : Trip) : Option Nat :=
  if curr = t.first then
    if lineAt m curr = lineAt m t.second ∧ prev ≠ t.second then some t.second
    else none
  else if curr = t.second then
    if lineAt m curr = lineAt m t.first ∧ prev ≠ t.first then some t.first
    else none
  else none

/-- Modelled from the spec (claim C5's reading of the terminus walk): among
the edges qualifying at the state `(prev, curr)` held at loop entry, the
last one in edge-iteration order determines the step. -/
def lastQualifying (m : Metro) (prev curr : Nat) (trips : List Trip) :
    Option Nat :=
  trips.foldl
    (fun acc t =>
      match qualifyTarget m prev curr t with
      | some nb => some nb
      | none => acc)
    none

/-- Modelled from the spec (claim C5's reading of `get_terminus`): walk to
a terminus, stepping each time to the target of the last qualifying edge. -/
def specTerminusLast (m : Metro) : Nat → Nat → Nat → Option Nat
  | 0, _, _ => none
  | fuel + 1, prev, curr => do
    let st ← m.stations[curr]?
    if st.state then some st.id
    else
      match lastQualifying m prev curr (m.get_paths_to_neighboors curr) with
      | some nb => specTerminusLast m fuel curr nb
      | none => none

/-- Whether the final consecutive pair of `prev :: rest` lies on a single
line, i.e. the reconstructed path does not end with a line change. -/
def lastSame : Station → List Station → Bool
  | _, [] => true
  | p, [s] => p.line == s.line
  | _, s :: s2 :: r => lastSame s (s2 :: r)

/-! Concrete networks used to settle the claims.  All stations have
`id = index`, the dense-id contract the program relies on. -/

/-- Three stations on line 1; station 0 is not a terminus, stations 1 and 2
both are, and station 0 has same-line edges to both.  From the walk state
`(prev = 5, curr = 0)` both edges qualify in `get_terminus`. -/
def metroTwoQualifying : Metro :=
  { stations :=
      [ { id := 0, line := "1", state := false, name := "A" }
      , { id := 1, line := "1", state := true, name := "B" }
      , { id := 2, line := "1", state := true, name := "C" } ]
  , trips := [⟨0, 1, 10⟩, ⟨0, 2, 10⟩] }

/-- Two stations, no trips: station 1 is unreachable from station 0. -/
def metroDisconnected : Metro :=
  { stations :=
      [ { id := 0, line := "1", state := true, name := "A" }
      , { id := 1, line := "1", state := true, name := "B" } ]
  , trips := [] }

/-- A single station, for the self-query. -/
def metroSingle : Metro :=
  { stations := [{ id := 0, line := "1", state := true, name := "A" }]
  , trips := [] }

/-- A cycle of three stations, all on line 1, none flagged as terminus. -/
def metroCycle : Metro :=
  { stations :=
      [ { id := 0, line := "1", state := false, name := "A" }
      , { id := 1, line := "1", state := false, name := "B" }
      , { id := 2, line := "1", state := false, name := "C" } ]
  , trips := [⟨0, 1, 10⟩, ⟨1, 2, 10⟩, ⟨2, 0, 10⟩] }

/-- A path 0 - 1 - 2 whose final station 2 sits on line 2 while 0 and 1 sit
on line 1: the path of the query (0, 2) ends with a line change. -/
def metroTailTransfer : Metro :=
  { stations :=
      [ { id := 0, line := "1", state := false, name := "A" }
      , { id := 1, line := "1", state := true, name := "B" }
      , { id := 2, line := "2", state := true, name := "C" } ]
  , trips := [⟨0, 1, 10⟩, ⟨1, 2, 10⟩] }

/-- Three stations with a single edge 0 - 1: station 2 is unreachable, so
the third loop iteration selects with every unvisited distance infinite. -/
def metroThird : Metro :=
  { stations :=
      [ { id := 0, line := "1", state := false, name := "A" }
      , { id := 1, line := "1", state := false, name := "B" }
      , { id := 2, line := "1", state := false, name := "C" } ]
  , trips := [⟨0, 1, 10⟩] }

/-- C7: parsing the station record `V 0042 04 0 Les Halles` yields id 42,
line `4` (leading zeros stripped), terminus flag false and name
`Les Halles`; parsing the trip record `E 0042 0069 420` yields endpoints
42 and 69 and travel time 420 seconds. -/
theorem station_trip_record_parsing :
    Station.new "V 0042 04 0 Les Halles" =
      some { id := 42, line := "4", state := false, name := "Les Halles" } ∧
    Trip.new "E 0042 0069 420" =
      some { first := 42, second := 69, time := 420 } := by
  constructor <;> rfl

/-- C2 (code behavior at the failing input): on a network where station 1
is disconnected from station 0, the query `dijkstra(0, 1)` panics: the
predecessor of station 1 is still the `usize::MAX` sentinel, and the
predecessor walk of `get_changes` indexes `self.stations[usize::MAX]`,
out of bounds.  There is no distinguished "no route" outcome. -/
theorem dijkstra_unreachable_panics :
    ∀ fuel, metroDisconnected.dijkstra fuel 0 1 = none := by
  intro fuel
  cases fuel with
  | zero => rfl
  | succ f => rfl

/-- C3 (code behavior at the failing input): the self-query
`dijkstra(0, 0)` panics: the reconstructed path is `[station 0]` alone,
and `get_changes` unconditionally evaluates `path[1]` for the first
direction terminus, out of bounds.  There is no trivial-success outcome. -/
theorem dijkstra_self_query_panics :
    ∀ fuel, metroSingle.dijkstra fuel 0 0 = none := by
  intro fuel
  cases fuel with
  | zero => rfl
  | succ f => rfl

/-- C4 counterexample: the query `(0, 2)` on `metroTailTransfer` is
reachable and non-trivial, its path `[0, 1, 2]` ends with a line change at
station 2, and the produced itinerary has one transfer station and one
direction entry: `directions.length = changes.length`, not
`changes.length + 1`. -/
theorem changes_eq_directions_on_tail_transfer :
    (metroTailTransfer.dijkstra 10 0 2).map
        (fun r => (r.changes.length, r.directions.length)) = some (1, 1) := by
  rfl

/-- C6 counterexample: on `metroThird` (station 2 disconnected) with start
station 0, after two loop iterations the loop condition still holds
(`visited = 2 < 3`), the only unvisited station is 2, yet `get_next`
selects station 0 — an already visited station — because the minimum scan
never takes a station whose distance is the `usize::MAX` sentinel and its
`next` accumulator starts at 0. -/
theorem get_next_selects_visited_station :
    (dInit metroThird 0).bind (stepsRun metroThird 2) =
      some ⟨[0, 40, USIZE_MAX], [USIZE_MAX, 0, USIZE_MAX], [2], 2⟩ ∧
    get_next [0, 40, USIZE_MAX] [2] 2 = some (0, [2], 3) ∧
    0 ∉ ([2] : List Nat) := by
  exact ⟨rfl, rfl, by decide⟩

/-- C9 counterexample: on `metroDisconnected` with start station 1, the
second call of `get_next` happens with every unvisited distance infinite;
it returns station id 0, which is still unvisited there, and removes it
from the unvisited list (`[0]` shrinks to `[]`) — it does not "remove
nothing". -/
theorem get_next_removes_station_zero :
    (dInit metroDisconnected 1).bind (stepsRun metroDisconnected 1) =
      some ⟨[USIZE_MAX, 0], [USIZE_MAX, USIZE_MAX], [0], 1⟩ ∧
    get_next [USIZE_MAX, 0] [0] 1 = some (0, [], 2) ∧
    ([] : List Nat) ≠ [0] := by
  exact ⟨rfl, rfl, by decide⟩

/-- C5 counterexample: at the walk state `(prev = 5, curr = 0)` of
`metroTwoQualifying`, both incident edges qualify (`qualifyTarget` yields
1 for the first edge and 2 for the second), yet `get_terminus` walks to
station 1: the first qualifying edge in edge-iteration order determines
the step, while the spec-modelled last-qualifying-edge walk would reach
station 2. -/
theorem get_terminus_takes_first_qualifying :
    metroTwoQualifying.get_terminus 10 5 0 = some 1 ∧
    specTerminusLast metroTwoQualifying 10 5 0 = some 2 ∧
    qualifyTarget metroTwoQualifying 5 0 ⟨0, 1, 10⟩ = some 1 ∧
    qualifyTarget metroTwoQualifying 5 0 ⟨0, 2, 10⟩ = some 2 := by
  exact ⟨rfl, rfl, rfl, rfl⟩

/-- Following the predecessor chain from the start station itself succeeds
immediately, whatever the fuel. -/
theorem walkF_self (m : Metro) (start : Nat) (prevs : List Nat) (fuel : Nat)
    (acc : List Station) : walkF m start prevs fuel start acc = some acc := by
  cases fuel <;> simp [walkF]

/-- A successful `get_terminus` walk ends at a station of the registry that
is flagged as a terminus. -/
theorem get_terminus_some_terminus (m : Metro) :
    ∀ fuel prev curr t, m.get_terminus fuel prev curr = some t →
      ∃ st, st ∈ m.stations ∧ st.state = true ∧ st.id = t := by
  intro fuel
  induction fuel with
  | zero => intro p c t h; simp [Metro.get_terminus] at h
  | succ f ih =>
    intro p c t h
    simp only [Metro.get_terminus, Option.bind_eq_bind] at h
    rw [Option.bind_eq_some] at h
    obtain ⟨st, hst, h⟩ := h
    by_cases hs : st.state = true
    · rw [if_pos hs] at h
      exact ⟨st, List.getElem?_mem hst, hs, by injection h⟩
    · rw [if_neg hs] at h
      rw [Option.bind_eq_some] at h
      obtain ⟨pc, _, h⟩ := h
      exact ih pc.1 pc.2 t h

/-- On the all-one-line terminus-free cycle, the walk state of
`get_terminus` cycles through `(0,1)`, `(1,2)`, `(2,0)` forever: the fuel
always runs out. -/
theorem cycle3_none : ∀ fuel,
    metroCycle.get_terminus fuel 0 1 = none ∧
    metroCycle.get_terminus fuel 1 2 = none ∧
    metroCycle.get_terminus fuel 2 0 = none := by
  intro fuel
  induction fuel with
  | zero => exact ⟨rfl, rfl, rfl⟩
  | succ f ih =>
    refine ⟨?_, ?_, ?_⟩
    · rw [show metroCycle.get_terminus (f + 1) 0 1 =
            metroCycle.get_terminus f 1 2 from rfl]
      exact ih.2.1
    · rw [show metroCycle.get_terminus (f + 1) 1 2 =
            metroCycle.get_terminus f 2 0 from rfl]
      exact ih.2.2
    · rw [show metroCycle.get_terminus (f + 1) 2 0 =
            metroCycle.get_terminus f 0 1 from rfl]
      exact ih.1

/-- On the cycle, `get_changes` for the path `[0, 1]` diverges for every
fuel: its very first terminus lookup does. -/
theorem cycle3_changes_none : ∀ fuel,
    metroCycle.get_changes fuel 0 1 [USIZE_MAX, 0, 0] = none := by
  intro fuel
  cases fuel with
  | zero => rfl
  | succ f =>
    have hwalk : walkF metroCycle 0 [USIZE_MAX, 0, 0] (f + 1) 1
        [⟨1, "1", false, "B"⟩] =
        some [⟨1, "1", false, "B"⟩, ⟨0, "1", false, "A"⟩] := by
      rw [show walkF metroCycle 0 [USIZE_MAX, 0, 0] (f + 1) 1
            [⟨1, "1", false, "B"⟩] =
          walkF metroCycle 0 [USIZE_MAX, 0, 0] f 0
            [⟨1, "1", false, "B"⟩, ⟨0, "1", false, "A"⟩] from rfl]
      exact walkF_self metroCycle 0 [USIZE_MAX, 0, 0] f _
    show Option.bind (walkF metroCycle 0 [USIZE_MAX, 0, 0] (f + 1) 1
        [⟨1, "1", false, "B"⟩]) _ = none
    rw [hwalk]
    show Option.bind (metroCycle.get_terminus (f + 1) 0 1) _ = none
    rw [(cycle3_none (f + 1)).1]
    rfl

/-- C10: `get_terminus` terminates only when its same-line walk reaches a
station flagged as a terminus, and on `metroCycle` — a well-formed network
whose single line is a terminus-free cycle — the walk from `(0, 1)` never
exits, so the whole query `dijkstra(0, 1)`, whose route reconstruction
enters that segment, diverges (is `none` for every fuel). -/
theorem get_terminus_cycle_divergence :
    (∀ fuel, metroCycle.get_terminus fuel 0 1 = none ∧
             metroCycle.dijkstra fuel 0 1 = none) ∧
    (∀ (m : Metro) (fuel prev curr t : Nat),
        m.get_terminus fuel prev curr = some t →
        ∃ st, st ∈ m.stations ∧ st.state = true ∧ st.id = t) := by
  constructor
  · intro fuel
    refine ⟨(cycle3_none fuel).1, ?_⟩
    show Option.bind (metroCycle.get_changes fuel 0 1 [USIZE_MAX, 0, 0]) _ = none
    rw [cycle3_changes_none fuel]
    rfl
  · intro m fuel prev curr t h
    exact get_terminus_some_terminus m fuel prev curr t h

/-- Witness for the conditional part of `get_terminus_cycle_divergence`:
the concrete successful walk on `metroTwoQualifying` ends at terminus
station 1. -/
theorem get_terminus_cycle_divergence_witness :
    ∃ st, st ∈ metroTwoQualifying.stations ∧ st.state = true ∧ st.id = 1 :=
  get_terminus_cycle_divergence.2 metroTwoQualifying 10 5 0 1 rfl

/-- Arithmetic bridge: `USIZE_MAX` is the predecessor of the modulus. -/
theorem usize_max_succ : USIZE_MAX + 1 = USIZE_MOD := by decide

/-- Lookup bridge: an in-bounds index reads as `getD`. -/
theorem getElem?_eq_getD {l : List Nat} {i : Nat} (h : i < l.length) :
    l[i]? = some (l.getD i 0) := by
  rw [List.getElem?_eq_getElem h, List.getD_eq_getElem _ _ h]

/-- C1: in every relaxation of `Metro::dijkstra`, for an edge joining
`current` to the neighbor `nb`, the improvement test compares the raw sum
`distance[current] + path.time` against `distance[nb]`, while on success
the stored value is that sum plus the 30-second stop penalty, and
`prevs[nb]` is set to `current` exactly when the test succeeds (on failure
both arrays are unchanged).  The overflow-freedom hypothesis makes the
wrapping `usize` sums equal the mathematical ones. -/
theorem relax_raw_compare_penalized_store
    (distance prevs : List Nat) (current nb : Nat) (path : Trip)
    (hside : (current = path.first ∧ nb = path.second) ∨
             (current ≠ path.first ∧ current = path.second ∧ nb = path.first))
    (hc : current < distance.length) (hnb : nb < distance.length)
    (hnp : nb < prevs.length)
    (hov : distance.getD current 0 + path.time + 30 ≤ USIZE_MAX) :
    (distance.getD current 0 + path.time < distance.getD nb 0 →
      relaxOne distance prevs current path =
        some (distance.set nb (distance.getD current 0 + path.time + 30),
              prevs.set nb current)) ∧
    (¬ distance.getD current 0 + path.time < distance.getD nb 0 →
      relaxOne distance prevs current path = some (distance, prevs)) := by
  have hmod := usize_max_succ
  have hlt1 : distance.getD current 0 + path.time < USIZE_MOD := by omega
  have hlt2 : distance.getD current 0 + path.time + 30 < USIZE_MOD := by omega
  have hw1 : wadd (distance.getD current 0) path.time =
      distance.getD current 0 + path.time := by
    unfold wadd; exact Nat.mod_eq_of_lt hlt1
  have hw2 : wadd (distance.getD current 0 + path.time) 30 =
      distance.getD current 0 + path.time + 30 := by
    unfold wadd; exact Nat.mod_eq_of_lt hlt2
  rcases hside with ⟨h1, h2⟩ | ⟨h0, h1, h2⟩
  · subst h2
    constructor
    · intro hcmp
      simp only [relaxOne, if_pos h1, getElem?_eq_getD hc, getElem?_eq_getD hnb,
        Option.bind_eq_bind, Option.some_bind]
      rw [hw1, if_pos hcmp, hw2]
      simp only [setOpt, if_pos hnb, if_pos hnp, Option.bind_eq_bind,
        Option.some_bind]
    · intro hcmp
      simp only [relaxOne, if_pos h1, getElem?_eq_getD hc, getElem?_eq_getD hnb,
        Option.bind_eq_bind, Option.some_bind]
      rw [hw1, if_neg hcmp]
  · subst h2
    constructor
    · intro hcmp
      simp only [relaxOne, if_neg h0, if_pos h1, getElem?_eq_getD hc,
        getElem?_eq_getD hnb, Option.bind_eq_bind, Option.some_bind]
      rw [hw1, if_pos hcmp, hw2]
      simp only [setOpt, if_pos hnb, if_pos hnp, Option.bind_eq_bind,
        Option.some_bind]
    · intro hcmp
      simp only [relaxOne, if_neg h0, if_pos h1, getElem?_eq_getD hc,
        getElem?_eq_getD hnb, Option.bind_eq_bind, Option.some_bind]
      rw [hw1, if_neg hcmp]

/-- Witness for `relax_raw_compare_penalized_store` at a concrete edge:
the comparison `0 + 10 < 100` succeeds, 40 is stored and the predecessor
is set. -/
theorem relax_raw_compare_penalized_store_witness :
    relaxOne [0, 100] [9, 9] 0 ⟨0, 1, 10⟩ = some ([0, 40], [9, 0]) :=
  (relax_raw_compare_penalized_store [0, 100] [9, 9] 0 1 ⟨0, 1, 10⟩
    (Or.inl ⟨rfl, rfl⟩) (by decide) (by decide) (by decide) (by decide)).1
    (by decide)

/-- When no unvisited station improves on the running minimum, the scan
returns its accumulator unchanged. -/
theorem get_next_scan_none (distance : List Nat) :
    ∀ (l : List Nat) (min next : Nat),
      (∀ s ∈ l, s < distance.length) →
      (∀ s ∈ l, ¬ distance.getD s 0 < min) →
      get_next_scan distance l min next = some (min, next) := by
  intro l
  induction l with
  | nil => intro min next _ _; rfl
  | cons s t ih =>
    intro min next hb hno
    have hs : s < distance.length := hb s (List.mem_cons_self s t)
    simp only [get_next_scan, getElem?_eq_getD hs, Option.bind_eq_bind,
      Option.some_bind]
    rw [if_neg (hno s (List.mem_cons_self s t))]
    exact ih min next (fun u hu => hb u (List.mem_cons_of_mem s hu))
      (fun u hu => hno u (List.mem_cons_of_mem s hu))

/-- When some scanned station improves on the running minimum, the scan
returns the minimum-distance station that appears first among the minima:
every station before it in scan order has a strictly larger distance. -/
theorem get_next_scan_found (distance : List Nat) :
    ∀ (l : List Nat) (min next : Nat),
      (∀ s ∈ l, s < distance.length) →
      (∃ s ∈ l, distance.getD s 0 < min) →
      ∃ mv sv l1 l2,
        get_next_scan distance l min next = some (mv, sv) ∧
        mv = distance.getD sv 0 ∧ mv < min ∧
        l = l1 ++ sv :: l2 ∧
        (∀ u ∈ l1, mv < distance.getD u 0) ∧
        (∀ u ∈ l, mv ≤ distance.getD u 0) := by
  intro l
  induction l with
  | nil => intro min next _ hex; exact absurd hex (by simp)
  | cons s t ih =>
    intro min next hb hex
    have hs : s < distance.length := hb s (List.mem_cons_self s t)
    have hbt : ∀ u ∈ t, u < distance.length :=
      fun u hu => hb u (List.mem_cons_of_mem s hu)
    by_cases hd : distance.getD s 0 < min
    · by_cases hex2 : ∃ u ∈ t, distance.getD u 0 < distance.getD s 0
      · obtain ⟨mv, sv, l1, l2, heq, hmv, hlt, hsplit, hpre, hall⟩ :=
          ih (distance.getD s 0) s hbt hex2
        refine ⟨mv, sv, s :: l1, l2, ?_, hmv, lt_trans hlt hd,
          by rw [hsplit, List.cons_append], ?_, ?_⟩
        · simp only [get_next_scan, getElem?_eq_getD hs, Option.bind_eq_bind,
            Option.some_bind]
          rw [if_pos hd]
          exact heq
        · intro u hu
          rcases List.mem_cons.1 hu with h | h
          · rw [h]; exact hlt
          · exact hpre u h
        · intro u hu
          rcases List.mem_cons.1 hu with h | h
          · rw [h]; exact le_of_lt hlt
          · exact hall u h
      · push_neg at hex2
        refine ⟨distance.getD s 0, s, [], t, ?_, rfl, hd, rfl, by simp, ?_⟩
        · simp only [get_next_scan, getElem?_eq_getD hs, Option.bind_eq_bind,
            Option.some_bind]
          rw [if_pos hd]
          exact get_next_scan_none distance t (distance.getD s 0) s hbt
            (fun u hu => not_lt.2 (hex2 u hu))
        · intro u hu
          rcases List.mem_cons.1 hu with h | h
          · rw [h]
          · exact hex2 u h
    · have hex' : ∃ u ∈ t, distance.getD u 0 < min := by
        obtain ⟨u, hu, hul⟩ := hex
        rcases List.mem_cons.1 hu with h | h
        · exact absurd (h ▸ hul) hd
        · exact ⟨u, h, hul⟩
      obtain ⟨mv, sv, l1, l2, heq, hmv, hlt, hsplit, hpre, hall⟩ :=
        ih min next hbt hex'
      refine ⟨mv, sv, s :: l1, l2, ?_, hmv, hlt,
        by rw [hsplit, List.cons_append], ?_, ?_⟩
      · simp only [get_next_scan, getElem?_eq_getD hs, Option.bind_eq_bind,
          Option.some_bind]
        rw [if_neg hd]
        exact heq
      · intro u hu
        rcases List.mem_cons.1 hu with h | h
        · rw [h]; exact lt_of_lt_of_le hlt (not_lt.1 hd)
        · exact hpre u h
      · intro u hu
        rcases List.mem_cons.1 hu with h | h
        · rw [h]; exact le_of_lt (lt_of_lt_of_le hlt (not_lt.1 hd))
        · exact hall u h

/-- C6 (amended): whenever at least one unvisited station has a finite
(non-sentinel) distance, `get_next` selects an unvisited station of
minimum distance — the earliest such station in unvisited-list order,
hence the lowest id, since the list is kept in increasing id order —
removes its first occurrence from the list, and increments the counter.
(When every unvisited distance is the sentinel, `get_next` instead returns
station 0, which may already be visited: see
`get_next_selects_visited_station`.) -/
theorem get_next_min_selection (distance unvisited : List Nat)
    (visited next : Nat) (unvisited1 : List Nat) (visited1 : Nat)
    (hb : ∀ s ∈ unvisited, s < distance.length)
    (hfin : ∃ s ∈ unvisited, distance.getD s 0 < USIZE_MAX)
    (hrun : get_next distance unvisited visited = some (next, unvisited1, visited1)) :
    next ∈ unvisited ∧
    (∀ s ∈ unvisited, distance.getD next 0 ≤ distance.getD s 0) ∧
    (∃ l1 l2, unvisited = l1 ++ next :: l2 ∧
        ∀ u ∈ l1, distance.getD next 0 < distance.getD u 0) ∧
    unvisited1 = removeFirst unvisited next ∧ visited1 = visited + 1 := by
  obtain ⟨mv, sv, l1, l2, heq, hmv, _, hsplit, hpre, hall⟩ :=
    get_next_scan_found distance unvisited USIZE_MAX 0 hb hfin
  unfold get_next at hrun
  rw [heq] at hrun
  simp only [Option.bind_eq_bind, Option.some_bind, Option.some_inj,
    Prod.mk.injEq] at hrun
  obtain ⟨h1, h2, h3⟩ := hrun
  subst h1 h2 h3
  have hmem : sv ∈ unvisited := by
    rw [hsplit]; exact List.mem_append_right l1 (List.mem_cons_self sv l2)
  refine ⟨hmem, ?_, ⟨l1, l2, hsplit, ?_⟩, rfl, rfl⟩
  · intro s hs
    have := hall s hs
    rwa [hmv] at this
  · intro u hu
    have := hpre u hu
    rwa [hmv] at this

/-- Witness for `get_next_min_selection`: distances `[5, 3, 3]`, unvisited
`[0, 1, 2]`; station 1 is the first of the two minima. -/
theorem get_next_min_selection_witness :
    1 ∈ [0, 1, 2] ∧
    (∀ s ∈ [0, 1, 2], List.getD [5, 3, 3] 1 0 ≤ List.getD [5, 3, 3] s 0) ∧
    (∃ l1 l2, [0, 1, 2] = l1 ++ 1 :: l2 ∧
        ∀ u ∈ l1, List.getD [5, 3, 3] 1 0 < List.getD [5, 3, 3] u 0) ∧
    [0, 2] = removeFirst [0, 1, 2] 1 ∧ 8 = 7 + 1 :=
  get_next_min_selection [5, 3, 3] [0, 1, 2] 7 1 [0, 2] 8 (by decide)
    (by decide) rfl

/-- Rust `get_next` increments the visited counter unconditionally. -/
theorem get_next_visited_succ (distance unvisited : List Nat)
    (visited next : Nat) (unvisited1 : List Nat) (visited1 : Nat)
    (h : get_next distance unvisited visited = some (next, unvisited1, visited1)) :
    visited1 = visited + 1 := by
  unfold get_next at h
  cases hscan : get_next_scan distance unvisited USIZE_MAX 0 with
  | none => rw [hscan] at h; exact absurd h (by simp)
  | some mn =>
    rw [hscan] at h
    simp only [Option.bind_eq_bind, Option.some_bind, Option.some_inj,
      Prod.mk.injEq] at h
    exact h.2.2.symm

/-- Each iteration of the search loop increments the visited counter by
exactly one. -/
theorem dijkstraStep_visited_succ (m : Metro) (st st1 : DState)
    (h : dijkstraStep m st = some st1) : st1.visited = st.visited + 1 := by
  unfold dijkstraStep at h
  cases hn : get_next st.distance st.unvisited st.visited with
  | none => rw [hn] at h; exact absurd h (by simp)
  | some triple =>
    obtain ⟨next, unvisited1, visited1⟩ := triple
    rw [hn] at h
    simp only [Option.bind_eq_bind, Option.some_bind] at h
    cases hr : relaxList (m.get_paths_to_neighboors next) next st.distance
        st.prevs with
    | none => rw [hr] at h; exact absurd h (by simp)
    | some dp =>
      rw [hr] at h
      simp only [Option.bind_eq_bind, Option.some_bind, Option.some_inj] at h
      rw [← h]
      exact get_next_visited_succ st.distance st.unvisited st.visited next
        unvisited1 visited1 hn

/-- Running `k` conditional loop iterations either performs all `k` steps,
adding `k` to the visited counter, or stops early with the loop condition
already false. -/
theorem stepsRun_visited (m : Metro) :
    ∀ (k : Nat) (st s : DState), stepsRun m k st = some s →
      s.visited = st.visited + k ∨
        (m.stations.length ≤ s.visited ∧ s.visited ≤ st.visited + k) := by
  intro k
  induction k with
  | zero =>
    intro st s h
    simp only [stepsRun, Option.some_inj] at h
    subst h
    left; omega
  | succ n ih =>
    intro st s h
    simp only [stepsRun] at h
    by_cases hc : st.visited < m.stations.length
    · rw [if_pos hc] at h
      cases hstep : dijkstraStep m st with
      | none => rw [hstep] at h; exact absurd h (by simp)
      | some st1 =>
        rw [hstep] at h
        simp only [Option.bind_eq_bind, Option.some_bind] at h
        have hv1 := dijkstraStep_visited_succ m st st1 hstep
        rcases ih st1 s h with h2 | ⟨h2, h3⟩
        · left; omega
        · right; exact ⟨h2, by omega⟩
    · rw [if_neg hc] at h
      simp only [Option.some_inj] at h
      right
      rw [← h]
      omega

/-- When the conditional unrolling finishes with the loop condition false,
the fuelled `while` loop of `dijkstra` returns the same state. -/
theorem loopW_of_stepsRun (m : Metro) :
    ∀ (k : Nat) (st s : DState), stepsRun m k st = some s →
      ¬ s.visited < m.stations.length → loopW m k st = some s := by
  intro k
  induction k with
  | zero =>
    intro st s h hs
    simp only [stepsRun, Option.some_inj] at h
    subst h
    simp only [loopW, if_neg hs]
  | succ n ih =>
    intro st s h hs
    simp only [stepsRun] at h
    by_cases hc : st.visited < m.stations.length
    · rw [if_pos hc] at h
      simp only [loopW, if_pos hc]
      cases hstep : dijkstraStep m st with
      | none => rw [hstep] at h; exact absurd h (by simp)
      | some st1 =>
        rw [hstep] at h
        simp only [Option.bind_eq_bind, Option.some_bind] at h ⊢
        exact ih st1 s h hs
    · rw [if_neg hc] at h
      simp only [loopW, if_neg hc]
      exact h

/-- The initial search state has visited counter zero. -/
theorem dInit_visited (m : Metro) (start : Nat) (st : DState)
    (h : dInit m start = some st) : st.visited = 0 := by
  unfold dInit at h
  cases hset : setOpt (List.replicate m.stations.length USIZE_MAX) start 0 with
  | none => rw [hset] at h; exact absurd h (by simp)
  | some d =>
    rw [hset] at h
    simp only [Option.bind_eq_bind, Option.some_bind, Option.some_inj] at h
    rw [← h]

/-- From the initial state, `k ≤ n` loop iterations leave the visited
counter at exactly `k`: no early exit is possible before `n` selections. -/
theorem stepsRun_from_init (m : Metro) (start k : Nat) (st s : DState)
    (hinit : dInit m start = some st) (hk : k ≤ m.stations.length)
    (hrun : stepsRun m k st = some s) : s.visited = k := by
  have h0 := dInit_visited m start st hinit
  rcases stepsRun_visited m k st s hrun with h | ⟨h1, h2⟩ <;> omega

/-- When every unvisited station still has the sentinel distance, the scan
of `get_next` never updates its accumulator: the selection is station 0,
whose first occurrence — if any — is removed, and the counter still
increments. -/
theorem get_next_all_infinite (distance unvisited : List Nat) (visited : Nat)
    (hb : ∀ u ∈ unvisited, u < distance.length)
    (hinf : ∀ u ∈ unvisited, distance.getD u 0 = USIZE_MAX) :
    get_next distance unvisited visited =
      some (0, removeFirst unvisited 0, visited + 1) := by
  unfold get_next
  rw [get_next_scan_none distance unvisited USIZE_MAX 0 hb
    (fun u hu => by rw [hinf u hu]; exact lt_irrefl USIZE_MAX)]
  rfl

/-- C9 (amended): the search loop of `dijkstra` terminates after exactly
`stations.len()` selections: `get_next` increments the visited counter
unconditionally, so from the initial state the counter equals the
iteration count, reaching `stations.len()` — where the loop condition
first fails — after exactly that many iterations; and when no unvisited
station has a finite distance, `get_next` returns station id 0 (possibly
already visited), removing 0 from the unvisited list when it is still
there and nothing otherwise. -/
theorem dijkstra_loop_exact_iterations :
    (∀ (distance unvisited : List Nat) (visited next : Nat)
        (unvisited1 : List Nat) (visited1 : Nat),
        get_next distance unvisited visited = some (next, unvisited1, visited1) →
        visited1 = visited + 1) ∧
    (∀ (m : Metro) (st st1 : DState), dijkstraStep m st = some st1 →
        st1.visited = st.visited + 1) ∧
    (∀ (m : Metro) (start k : Nat) (st s : DState),
        dInit m start = some st → k ≤ m.stations.length →
        stepsRun m k st = some s → s.visited = k) ∧
    (∀ (m : Metro) (k : Nat) (st s : DState), stepsRun m k st = some s →
        ¬ s.visited < m.stations.length → loopW m k st = some s) ∧
    (∀ (distance unvisited : List Nat) (visited : Nat),
        (∀ u ∈ unvisited, u < distance.length) →
        (∀ u ∈ unvisited, distance.getD u 0 = USIZE_MAX) →
        get_next distance unvisited visited =
          some (0, removeFirst unvisited 0, visited + 1)) :=
  ⟨get_next_visited_succ, dijkstraStep_visited_succ, stepsRun_from_init,
    loopW_of_stepsRun, get_next_all_infinite⟩

/-- Witness for `dijkstra_loop_exact_iterations`: on the one-station
network, one iteration from the initial state leaves the counter at 1. -/
theorem dijkstra_loop_exact_iterations_witness :
    (⟨[0], [USIZE_MAX], [], 1⟩ : DState).visited = 1 :=
  dijkstra_loop_exact_iterations.2.2.1 metroSingle 0 1
    ⟨[0], [USIZE_MAX], [0], 0⟩ ⟨[0], [USIZE_MAX], [], 1⟩ rfl (by decide) rfl

/-- One-step unfolding of the scan loop: empty tail. -/
theorem cdLoop_nil (m : Metro) (fuel : Nat) (prev : Station)
    (changes : List Station) (dirs : List Nat) :
    cdLoop m fuel prev [] changes dirs = some (changes, dirs) := rfl

/-- One-step unfolding of the scan loop at the final pair of the path. -/
theorem cdLoop_cons_nil (m : Metro) (fuel : Nat) (prev s : Station)
    (changes : List Station) (dirs : List Nat) :
    cdLoop m fuel prev [s] changes dirs =
      if prev.line ≠ s.line then cdLoop m fuel s [] (changes ++ [s]) dirs
      else cdLoop m fuel s [] changes dirs := rfl

/-- One-step unfolding of the scan loop at an inner pair of the path. -/
theorem cdLoop_cons_cons (m : Metro) (fuel : Nat) (prev s s2 : Station)
    (r2 : List Station) (changes : List Station) (dirs : List Nat) :
    cdLoop m fuel prev (s :: s2 :: r2) changes dirs =
      if prev.line ≠ s.line then
        (m.get_terminus fuel s.id s2.id).bind
          (fun d => cdLoop m fuel s (s2 :: r2) (changes ++ [s]) (dirs ++ [d]))
      else cdLoop m fuel s (s2 :: r2) changes dirs := rfl

/-- Length bookkeeping of the `get_changes` scan loop: as long as the path
does not end with a line change, the loop adds the same number of entries
to `changes` and to `directions`. -/
theorem cdLoop_len (m : Metro) (fuel : Nat) :
    ∀ (rest : List Station) (prev : Station) (changes changes1 : List Station)
      (dirs dirs1 : List Nat),
      lastSame prev rest = true →
      cdLoop m fuel prev rest changes dirs = some (changes1, dirs1) →
      dirs1.length + changes.length = changes1.length + dirs.length := by
  intro rest
  induction rest with
  | nil =>
    intro prev ch ch1 ds ds1 _ h
    rw [cdLoop_nil] at h
    simp only [Option.some_inj, Prod.mk.injEq] at h
    obtain ⟨h1, h2⟩ := h
    rw [h1, h2]
    omega
  | cons s rest ih =>
    intro prev ch ch1 ds ds1 hlast h
    cases rest with
    | nil =>
      have hline : prev.line = s.line := by
        have hb : (prev.line == s.line) = true := hlast
        exact eq_of_beq hb
      have hcond : ¬ prev.line ≠ s.line := fun hne => hne hline
      rw [cdLoop_cons_nil, if_neg hcond, cdLoop_nil] at h
      simp only [Option.some_inj, Prod.mk.injEq] at h
      obtain ⟨h1, h2⟩ := h
      rw [h1, h2]
      omega
    | cons s2 r2 =>
      have hlast2 : lastSame s (s2 :: r2) = true := hlast
      by_cases hline : prev.line = s.line
      · have hcond : ¬ prev.line ≠ s.line := fun hne => hne hline
        rw [cdLoop_cons_cons, if_neg hcond] at h
        exact ih s ch ch1 ds ds1 hlast2 h
      · rw [cdLoop_cons_cons, if_pos hline] at h
        cases hterm : m.get_terminus fuel s.id s2.id with
        | none => rw [hterm] at h; exact absurd h (by simp)
        | some d =>
          rw [hterm] at h
          simp only [Option.some_bind] at h
          have := ih s (ch ++ [s]) ch1 (ds ++ [d]) ds1 hlast2 h
          simp only [List.length_append, List.length_singleton] at this
          omega

/-- C4 (amended): for a reconstructed path of at least two stations whose
final station is NOT a transfer (its line equals the previous station's),
the itinerary satisfies `directions.length = changes.length + 1`; when the
path ends with a line change the two lengths are equal instead
(`changes_eq_directions_on_tail_transfer`). -/
theorem get_changes_direction_count (m : Metro) (fuel start endId : Nat)
    (prevs : List Nat) (se : Station) (walked : List Station)
    (s0 s1 : Station) (rest : List Station)
    (changes : List Station) (directions : List Nat)
    (hse : m.stations[endId]? = some se)
    (hwalk : walkF m start prevs fuel endId [se] = some walked)
    (hpath : walked.reverse = s0 :: s1 :: rest)
    (hlast : lastSame s0 (s1 :: rest) = true)
    (hrun : m.get_changes fuel start endId prevs = some (changes, directions)) :
    directions.length = changes.length + 1 := by
  unfold Metro.get_changes at hrun
  rw [hse] at hrun
  simp only [Option.bind_eq_bind, Option.some_bind] at hrun
  rw [hwalk] at hrun
  simp only [Option.some_bind] at hrun
  rw [hpath] at hrun
  rw [show ∀ (k : Option (List Station × List Nat)),
      (match s0 :: s1 :: rest with
        | s0 :: s1 :: rest =>
          (m.get_terminus fuel s0.id s1.id).bind
            (fun d0 => cdLoop m fuel s0 (s1 :: rest) [] [d0])
        | _ => none) = k ↔
      (m.get_terminus fuel s0.id s1.id).bind
        (fun d0 => cdLoop m fuel s0 (s1 :: rest) [] [d0]) = k
    from fun k => Iff.rfl] at hrun
  cases hterm : m.get_terminus fuel s0.id s1.id with
  | none => rw [hterm] at hrun; exact absurd hrun (by simp)
  | some d0 =>
    rw [hterm] at hrun
    simp only [Option.some_bind] at hrun
    have := cdLoop_len m fuel (s1 :: rest) s0 [] changes [d0] directions
      hlast hrun
    simp only [List.length_nil, List.length_singleton] at this
    omega

/-- Witness for `get_changes_direction_count`: the query `(0, 1)` on
`metroTailTransfer` has path `[0, 1]` with both stations on line 1; the
itinerary has zero transfers and one direction entry. -/
theorem get_changes_direction_count_witness :
    ([1] : List Nat).length = ([] : List Station).length + 1 :=
  get_changes_direction_count metroTailTransfer 5 0 1 [9, 0, 1]
    ⟨1, "1", true, "B"⟩ [⟨1, "1", true, "B"⟩, ⟨0, "1", false, "A"⟩]
    ⟨0, "1", false, "A"⟩ ⟨1, "1", true, "B"⟩ [] [] [1]
    rfl rfl rfl rfl rfl

/-- One-step unfolding of the `get_terminus` edge fold. -/
theorem termStep_cons (m : Metro) (t : Trip) (rest : List Trip) (p c : Nat) :
    termStep m (t :: rest) p c =
      if c = t.first then
        (m.stations[c]?).bind (fun sc => (m.stations[t.second]?).bind (fun so =>
          if sc.line = so.line ∧ p ≠ t.second then termStep m rest c t.second
          else termStep m rest p c))
      else if c = t.second then
        (m.stations[c]?).bind (fun sc => (m.stations[t.first]?).bind (fun so =>
          if sc.line = so.line ∧ p ≠ t.first then termStep m rest c t.first
          else termStep m rest p c))
      else termStep m rest p c := rfl

/-- The edge fold of `get_terminus` splits along list append. -/
theorem termStep_append (m : Metro) :
    ∀ (l1 l2 : List Trip) (p c : Nat),
      termStep m (l1 ++ l2) p c =
        (termStep m l1 p c).bind (fun pc => termStep m l2 pc.1 pc.2) := by
  intro l1
  induction l1 with
  | nil => intro l2 p c; rfl
  | cons t rest ih =>
    intro l2 p c
    rw [List.cons_append, termStep_cons, termStep_cons]
    by_cases h1 : c = t.first
    · rw [if_pos h1, if_pos h1]
      cases hsc : m.stations[c]? with
      | none => simp
      | some sc =>
        cases hso : m.stations[t.second]? with
        | none => simp
        | some so =>
          simp only [Option.some_bind]
          by_cases hcond : sc.line = so.line ∧ p ≠ t.second
          · rw [if_pos hcond, if_pos hcond, ih]
          · rw [if_neg hcond, if_neg hcond, ih]
    · rw [if_neg h1, if_neg h1]
      by_cases h2 : c = t.second
      · rw [if_pos h2, if_pos h2]
        cases hsc : m.stations[c]? with
        | none => simp
        | some sc =>
          cases hso : m.stations[t.first]? with
          | none => simp
          | some so =>
            simp only [Option.some_bind]
            by_cases hcond : sc.line = so.line ∧ p ≠ t.first
            · rw [if_pos hcond, if_pos hcond, ih]
            · rw [if_neg hcond, if_neg hcond, ih]
      · rw [if_neg h2, if_neg h2, ih]

/-- After a step of the `get_terminus` walk from `c` to `b ≠ c`, no later
edge of `c`'s incident list can fire again: an edge matching the new
current station `b` must join `b` and `c`, and its far endpoint `c` is now
the excluded previous station. -/
theorem termStep_no_override (m : Metro) (c b : Nat) (hbc : b ≠ c)
    (hb : b < m.stations.length) (hc : c < m.stations.length) :
    ∀ l : List Trip, (∀ t ∈ l, t.first = c ∨ t.second = c) →
      termStep m l c b = some (c, b) := by
  intro l
  induction l with
  | nil => intro _; rfl
  | cons t rest ih =>
    intro hinc
    have ht := hinc t (List.mem_cons_self t rest)
    have hrest : ∀ u ∈ rest, u.first = c ∨ u.second = c :=
      fun u hu => hinc u (List.mem_cons_of_mem t hu)
    rw [termStep_cons]
    by_cases h1 : b = t.first
    · rw [if_pos h1]
      have h2 : t.second = c := by
        rcases ht with h | h
        · exact absurd (h1.trans h) hbc
        · exact h
      rw [h2, List.getElem?_eq_getElem hb, List.getElem?_eq_getElem hc]
      simp only [Option.some_bind]
      rw [if_neg (fun hand => hand.2 rfl)]
      exact ih hrest
    · rw [if_neg h1]
      by_cases h2 : b = t.second
      · rw [if_pos h2]
        have h3 : t.first = c := by
          rcases ht with h | h
          · exact h
          · exact absurd (h2.trans h) hbc
        rw [h3, List.getElem?_eq_getElem hb, List.getElem?_eq_getElem hc]
        simp only [Option.some_bind]
        rw [if_neg (fun hand => hand.2 rfl)]
        exact ih hrest
      · rw [if_neg h2]
        exact ih hrest

/-- If the edges before `t` leave the walk state `(p, c)` unchanged and `t`
is the first qualifying edge, with target `b`, then the whole edge fold
of `get_terminus` steps exactly to `(c, b)`: the first qualifying edge in
edge-iteration order wins. -/
theorem termStep_first_qualifying (m : Metro) (l1 l2 : List Trip) (t : Trip)
    (p c b : Nat) (hpre : termStep m l1 p c = some (p, c))
    (hq : qualifyTarget m p c t = some b)
    (hinc : ∀ u ∈ l2, u.first = c ∨ u.second = c)
    (hbc : b ≠ c) (hb : b < m.stations.length) (hc : c < m.stations.length) :
    termStep m (l1 ++ t :: l2) p c = some (c, b) := by
  rw [termStep_append, hpre, Option.some_bind]
  unfold qualifyTarget at hq
  by_cases h1 : c = t.first
  · rw [if_pos h1] at hq
    by_cases hcond : lineAt m c = lineAt m t.second ∧ p ≠ t.second
    · rw [if_pos hcond] at hq
      have hb2 : t.second = b := by injection hq
      have hso : m.stations[t.second]? = some m.stations[b] := by
        rw [hb2]; exact List.getElem?_eq_getElem hb
      have hline : (m.stations[c]).line = (m.stations[b]).line := by
        have h := hcond.1
        unfold lineAt at h
        rw [List.getElem?_eq_getElem hc, hso] at h
        simp only [Option.map_some', Option.some_inj] at h
        exact h
      rw [termStep_cons, if_pos h1, List.getElem?_eq_getElem hc, hso]
      simp only [Option.some_bind]
      rw [if_pos ⟨hline, hcond.2⟩, hb2]
      exact termStep_no_override m c b hbc hb hc l2 hinc
    · rw [if_neg hcond] at hq
      exact absurd hq (by simp)
  · rw [if_neg h1] at hq
    by_cases h2 : c = t.second
    · rw [if_pos h2] at hq
      by_cases hcond : lineAt m c = lineAt m t.first ∧ p ≠ t.first
      · rw [if_pos hcond] at hq
        have hb2 : t.first = b := by injection hq
        have hso : m.stations[t.first]? = some m.stations[b] := by
          rw [hb2]; exact List.getElem?_eq_getElem hb
        have hline : (m.stations[c]).line = (m.stations[b]).line := by
          have h := hcond.1
          unfold lineAt at h
          rw [List.getElem?_eq_getElem hc, hso] at h
          simp only [Option.map_some', Option.some_inj] at h
          exact h
        rw [termStep_cons, if_neg h1, if_pos h2, List.getElem?_eq_getElem hc,
          hso]
        simp only [Option.some_bind]
        rw [if_pos ⟨hline, hcond.2⟩, hb2]
        exact termStep_no_override m c b hbc hb hc l2 hinc
      · rw [if_neg hcond] at hq
        exact absurd hq (by simp)
    · rw [if_neg h2] at hq
      exact absurd hq (by simp)

/-- C5 (amended): at a non-terminus walk station `c`, one iteration of the
`get_terminus` loop steps to the target `b` of the FIRST qualifying edge
in edge-iteration order (same line, far endpoint not the previous
station).  Later qualifying edges never override the choice: the
unconditional overwrite replaces `curr` itself, so every subsequent edge
of the original incident list fails the match or the back-edge test. -/
theorem get_terminus_first_qualifying_step (m : Metro) (fuel : Nat)
    (l1 l2 : List Trip) (t : Trip) (p c b : Nat) (sc : Station)
    (hlist : m.get_paths_to_neighboors c = l1 ++ t :: l2)
    (hpre : termStep m l1 p c = some (p, c))
    (hq : qualifyTarget m p c t = some b)
    (hbc : b ≠ c) (hb : b < m.stations.length) (hc : c < m.stations.length)
    (hsc : m.stations[c]? = some sc) (hscf : sc.state = false) :
    m.get_terminus (fuel + 1) p c = m.get_terminus fuel c b := by
  have hinc : ∀ u ∈ l2, u.first = c ∨ u.second = c := by
    intro u hu
    have hmem : u ∈ m.get_paths_to_neighboors c := by
      rw [hlist]
      exact List.mem_append_right l1 (List.mem_cons_of_mem t hu)
    have hcond := (List.mem_filter.1 hmem).2
    simp only [Bool.or_eq_true, beq_iff_eq] at hcond
    rcases hcond with h | h
    · exact Or.inl h.symm
    · exact Or.inr h.symm
  rw [show m.get_terminus (fuel + 1) p c =
      (m.stations[c]?).bind (fun st => if st.state then some st.id else
        (termStep m (m.get_paths_to_neighboors c) p c).bind
          (fun pc => m.get_terminus fuel pc.1 pc.2)) from rfl]
  rw [hsc]
  simp only [Option.some_bind]
  rw [if_neg (by rw [hscf]; decide)]
  rw [hlist, termStep_first_qualifying m l1 l2 t p c b hpre hq hinc hbc hb hc]
  rw [Option.some_bind]

/-- Witness for `get_terminus_first_qualifying_step`: on
`metroTwoQualifying`, one iteration from `(5, 0)` steps to `(0, 1)`, the
target of the first of the two qualifying edges. -/
theorem get_terminus_first_qualifying_step_witness :
    metroTwoQualifying.get_terminus 2 5 0 =
      metroTwoQualifying.get_terminus 1 0 1 :=
  get_terminus_first_qualifying_step metroTwoQualifying 1 [] [⟨0, 2, 10⟩]
    ⟨0, 1, 10⟩ 5 0 1 ⟨0, "1", false, "A"⟩ rfl rfl rfl (by decide) (by decide)
    (by decide) rfl rfl

/-- The derived lexicographic order on time tuples, as a proposition. -/
theorem tupleLt_iff (a b : Nat × Nat) :
    tupleLt a b = true ↔ a.1 < b.1 ∨ (a.1 = b.1 ∧ a.2 < b.2) := by
  simp [tupleLt]

/-- The time order is irreflexive. -/
theorem tupleLt_irrefl (a : Nat × Nat) : tupleLt a a = false := by
  simp [tupleLt]

/-- The time order is transitive. -/
theorem tupleLt_trans {a b c : Nat × Nat} (h1 : tupleLt a b = true)
    (h2 : tupleLt b c = true) : tupleLt a c = true := by
  rw [tupleLt_iff] at h1 h2 ⊢
  omega

/-- The time order is total: a failed comparison means greater or equal. -/
theorem tupleLt_total {a b : Nat × Nat} (h : tupleLt a b = false) :
    tupleLt b a = true ∨ a = b := by
  have h1 : ¬ tupleLt a b = true := by rw [h]; decide
  rw [tupleLt_iff] at h1
  rw [tupleLt_iff, Prod.ext_iff]
  omega

/-- Invariant proof of the selection loop of `main`: starting from a
running best that is minimal and first among the entries already scanned,
the loop returns the index of the lexicographically smallest time, the
earliest one among equals. -/
theorem bestLoop_spec (results : List Results) :
    ∀ (r best i : Nat) (hbest : best < results.length),
      i + r = results.length → best < i →
      (∀ j (hj : j < results.length), j < i →
          tupleLt (results[j].time) (results[best].time) = false) →
      (∀ j (hj : j < results.length), j < best →
          tupleLt (results[best].time) (results[j].time) = true) →
      ∃ (b : Nat) (hb : b < results.length),
        bestLoop results r best i = some b ∧
        (∀ j (hj : j < results.length),
            tupleLt (results[j].time) (results[b].time) = false) ∧
        (∀ j (hj : j < results.length), j < b →
            tupleLt (results[b].time) (results[j].time) = true) := by
  intro r
  induction r with
  | zero =>
    intro best i hbest hi hbi hmin hfirst
    refine ⟨best, hbest, rfl, ?_, hfirst⟩
    intro j hj
    exact hmin j hj (by omega)
  | succ n ih =>
    intro best i hbest hi hbi hmin hfirst
    have hil : i < results.length := by omega
    rw [show bestLoop results (n + 1) best i =
        (results[i]?).bind (fun ri => (results[best]?).bind (fun rb =>
          if tupleLt ri.time rb.time then bestLoop results n i (i + 1)
          else bestLoop results n best (i + 1))) from rfl]
    rw [List.getElem?_eq_getElem hil, List.getElem?_eq_getElem hbest]
    simp only [Option.some_bind]
    by_cases hcmp : tupleLt (results[i].time) (results[best].time) = true
    · rw [if_pos hcmp]
      apply ih i (i + 1) hil (by omega) (by omega)
      · intro j hj hji
        by_cases hji2 : j < i
        · have hjb := hmin j hj hji2
          by_contra hne
          have hlt : tupleLt (results[j].time) (results[i].time) = true := by
            cases htl : tupleLt (results[j].time) (results[i].time)
            · exact absurd htl hne
            · rfl
          have hcontra := tupleLt_trans hlt hcmp
          rw [hjb] at hcontra
          exact absurd hcontra (by decide)
        · have hje : j = i := by omega
          subst hje
          exact tupleLt_irrefl _
      · intro j hj hji
        have hjb := hmin j hj hji
        rcases tupleLt_total hjb with h | h
        · exact tupleLt_trans hcmp h
        · rw [h]
          exact hcmp
    · have hcf : tupleLt (results[i].time) (results[best].time) = false := by
        cases htl : tupleLt (results[i].time) (results[best].time)
        · rfl
        · exact absurd htl hcmp
      rw [if_neg hcmp]
      apply ih best (i + 1) hbest (by omega) (by omega)
      · intro j hj hji
        by_cases hji2 : j < i
        · exact hmin j hj hji2
        · have hje : j = i := by omega
          subst hje
          exact hcf
      · exact hfirst

/-- A successful collapse of the query results preserves the count. -/
theorem seqOpt_length : ∀ (l : List (Option Results)) (xs : List Results),
    seqOpt l = some xs → xs.length = l.length := by
  intro l
  induction l with
  | nil =>
    intro xs h
    simp only [seqOpt, Option.some_inj] at h
    rw [← h]
    rfl
  | cons o rest ih =>
    intro xs h
    cases o with
    | none => exact absurd h (by simp [seqOpt])
    | some x =>
      simp only [seqOpt, Option.bind_eq_bind, Option.some_bind] at h
      cases hrest : seqOpt rest with
      | none => rw [hrest] at h; exact absurd h (by simp)
      | some ys =>
        rw [hrest] at h
        simp only [Option.some_bind, Option.some_inj] at h
        rw [← h]
        simp only [List.length_cons, ih ys hrest]

/-- The nested query loop of `main` issues one query per
(departure, arrival) pair. -/
theorem flatMap_const_length (arrivals : List Nat)
    (g : Nat → Nat → Option Results) :
    ∀ departures : List Nat,
      (departures.flatMap (fun d => arrivals.map (g d))).length =
        departures.length * arrivals.length := by
  intro departures
  induction departures with
  | nil => simp
  | cons d rest ih =>
    simp only [List.flatMap_cons, List.length_append, List.length_map,
      List.length_cons, ih]
    ring

/-- A successful `main` run holds one result per (departure, arrival)
pair. -/
theorem mainResults_length (m : Metro) (fuel : Nat)
    (departures arrivals : List Nat) (results : List Results)
    (h : mainResults m fuel departures arrivals = some results) :
    results.length = departures.length * arrivals.length :=
  calc results.length
      = (departures.flatMap
          (fun d => arrivals.map (fun a => m.dijkstra fuel d a))).length :=
        seqOpt_length _ results h
    _ = departures.length * arrivals.length :=
        flatMap_const_length arrivals (fun d a => m.dijkstra fuel d a)
          departures

/-- C8: the caller computes one itinerary per (departure, arrival) pair —
departures outermost, in iteration order — and selects the index whose
(minutes, seconds) tuple is lexicographically smallest, ties resolved in
favor of the first such result found: every entry fails the strict
comparison against the selected one, and the selected one strictly beats
every earlier entry. -/
theorem main_best_selection (m : Metro) (fuel : Nat)
    (departures arrivals : List Nat) (results : List Results)
    (hrun : mainResults m fuel departures arrivals = some results) :
    results.length = departures.length * arrivals.length ∧
    (results ≠ [] →
      ∃ (b : Nat) (hb : b < results.length),
        bestOf results = some b ∧
        (∀ j (hj : j < results.length),
            tupleLt (results[j].time) (results[b].time) = false) ∧
        (∀ j (hj : j < results.length), j < b →
            tupleLt (results[b].time) (results[j].time) = true)) := by
  refine ⟨mainResults_length m fuel departures arrivals results hrun, ?_⟩
  intro hne
  have hlen : 0 < results.length := List.length_pos.2 hne
  unfold bestOf
  apply bestLoop_spec results (results.length - 1) 0 1 hlen (by omega)
    (by omega)
  · intro j hj hji
    have hj0 : j = 0 := by omega
    subst hj0
    exact tupleLt_irrefl _
  · intro j hj hji
    omega

/-- Witness for `main_best_selection`: one departure and two arrivals on
`metroTailTransfer` yield two results. -/
theorem main_best_selection_witness :
    ([ ⟨0, [], [1], (0, 40), 1⟩,
       ⟨0, [⟨2, "2", true, "C"⟩], [1], (1, 20), 2⟩ ] : List Results).length =
      [0].length * [1, 2].length :=
  (main_best_selection metroTailTransfer 9 [0] [1, 2] _ rfl).1
